import Mathlib

/-!
Shallow embedding of `zipline/utils/memoize.py`.

The file models, faithfully to the Python source:
- the `OrderedDict`-backed cache of the bounded `weak_lru_cache` variant
  (`_WeakOrderedDict`): an association list ordered least-recent first,
  with `__setitem__` keeping the position of an existing key,
  `move_to_end` implemented as `self[key] = self.pop(key)`, and
  `popitem(False)` removing the least recently used entry;
- the two `wrapper` closures of `weak_lru_cache.decorating_function`
  (bounded and unbounded), including the hit path (`cache_renew`,
  `hits[0] += 1`), the miss path (`user_function(*args)` followed by the
  insert, `misses[0] += 1` and the `len(cache) > maxsize` eviction), the
  TypeError raised while hashing an unhashable key inside `cache[key]`,
  and exception propagation from the wrapped callable;
- `cache_clear` and the `currsize` component of `cache_info`;
- `_WeakKey`: pieces that are weak references or by-value items, Python
  `weakref.ref` equality (live referents by `==`, dead ones by reference
  object identity), `list` equality over the pieces, and the hash that is
  memoized on the first `__hash__` call;
- the `lazyval` descriptor (`__get__`, `__set__`, `__delitem__`) over its
  `WeakKeyDictionary` cache.

Machine-level effects that the claims exclude (garbage collection
callbacks firing during a run, thread interleavings) are not modelled:
every claim below is about single-threaded runs with no key death, except
where the heap of live referents is passed explicitly (`Heap`).
-/

/-- Error classes that the modelled code can raise. -/
inductive PyErr where
  | typeError
  | keyError
  | attributeError
deriving DecidableEq, Repr

/-! ## OrderedDict model (backing store of `_WeakOrderedDict`)

An association list ordered least recent first; the plain dict of
`_WeakKeyDict` is modelled by the same type, ignoring order. -/

/-- Lookup in the backing (ordered) dict: `self.data[key]`, returning
`none` where Python raises `KeyError`. -/
def od_getitem [DecidableEq K] : List (K × V) → K → Option V
  | [], _ => none
  | (k', v) :: rest, k => if k' = k then some v else od_getitem rest k

/-- Dict `__setitem__`: an existing key keeps its position and gets the new
value; a new key is appended at the most-recent end (insertion order). -/
def od_setitem [DecidableEq K] : List (K × V) → K → V → List (K × V)
  | [], k, v => [(k, v)]
  | (k', v') :: rest, k, v =>
      if k' = k then (k, v) :: rest else (k', v') :: od_setitem rest k v

/-- Dict `pop`/`del`: removes the (unique) entry with the given key. -/
def od_pop [DecidableEq K] : List (K × V) → K → List (K × V)
  | [], _ => []
  | (k', v') :: rest, k => if k' = k then rest else (k', v') :: od_pop rest k

/-- The source's `_WeakOrderedDict.move_to_end(key)`, implemented there as
`self[key] = self.pop(key)`: remove the entry, then re-insert it, which
appends it at the most-recent end.  Only ever called on a present key. -/
def move_to_end [DecidableEq K] (c : List (K × V)) (k : K) : List (K × V) :=
  match od_getitem c k with
  | some v => od_setitem (od_pop c k) k v
  | none => c

/-- The bounded wrapper's `cache_popitem(False)`: drop the least recently
used entry (the front of the order).  Only ever called on `len > maxsize`,
hence on a nonempty cache. -/
def popitem_first : List (K × V) → List (K × V)
  | [] => []
  | _ :: rest => rest

/-! ## The wrapper state and the two `wrapper` closures -/

/-- State closed over by one memoizing wrapper: the cache together with the
`hits[0]` and `misses[0]` cells. -/
structure LRUState (K V : Type) where
  cache : List (K × V)
  hits : Nat
  misses : Nat
deriving DecidableEq, Repr

/-- Fresh wrapper state: empty cache, zeroed counters. -/
def initLRU : LRUState K V := ⟨[], 0, 0⟩

/-- The `currsize` field of `cache_info()`: `len(cache)`. -/
def currsize (s : LRUState K V) : Nat := s.cache.length

/-- The source's `cache_clear()`: clears the cache and zeroes both
counters. -/
def cache_clear (_ : LRUState K V) : LRUState K V := ⟨[], 0, 0⟩

/-- One call of the bounded `wrapper` (the `else` branch of
`decorating_function`, maxsize a positive integer).  `hashable k` models
whether `hash(_WeakKey(key))` succeeds; when it is false the `TypeError`
raised inside `cache[key]` propagates (the surrounding `except KeyError`
does not catch it), before `user_function` runs and before anything is
stored.  `f` is the wrapped callable, returning either a result or the
exception it raises.  The returned `Bool` records whether `f` was invoked
on this call. -/
def wrapper_bounded [DecidableEq K] (maxsize : Nat) (hashable : K → Bool)
    (f : K → Except PyErr V) (s : LRUState K V) (k : K) :
    Except PyErr V × LRUState K V × Bool :=
  if hashable k then
    match od_getitem s.cache k with
    | some v =>
        (Except.ok v,
         { s with cache := move_to_end s.cache k, hits := s.hits + 1 },
         false)
    | none =>
        match f k with
        | Except.ok r =>
            let c1 := od_setitem s.cache k r
            let c2 := if maxsize < c1.length then popitem_first c1 else c1
            (Except.ok r, { s with cache := c2, misses := s.misses + 1 }, true)
        | Except.error e => (Except.error e, s, true)
  else
    (Except.error PyErr.typeError, s, false)

/-- One call of the unbounded `wrapper` (the `maxsize is None` branch): no
recency bookkeeping, no eviction; otherwise the same flow as the bounded
variant. -/
def wrapper_unbounded [DecidableEq K] (hashable : K → Bool)
    (f : K → Except PyErr V) (s : LRUState K V) (k : K) :
    Except PyErr V × LRUState K V × Bool :=
  if hashable k then
    match od_getitem s.cache k with
    | some v => (Except.ok v, { s with hits := s.hits + 1 }, false)
    | none =>
        match f k with
        | Except.ok r =>
            (Except.ok r,
             { s with cache := od_setitem s.cache k r, misses := s.misses + 1 },
             true)
        | Except.error e => (Except.error e, s, true)
  else
    (Except.error PyErr.typeError, s, false)

/-- Run the bounded wrapper over a list of (hashable) arguments with a pure
callable, logging each call's returned value and whether the callable was
invoked. -/
def runBLog [DecidableEq K] (maxsize : Nat) (f : K → V) :
    LRUState K V → List K → List (Except PyErr V × Bool) × LRUState K V
  | s, [] => ([], s)
  | s, k :: ks =>
      let r := wrapper_bounded maxsize (fun _ => true) (fun x => Except.ok (f x)) s k
      let rest := runBLog maxsize f r.2.1 ks
      ((r.1, r.2.2) :: rest.1, rest.2)

/-- Cumulative invocation counter derived from the per-call invocation
flags (the value of an invocation counter inside the callable after each
call), starting from a given count. -/
def cum_invocations : Nat → List Bool → List Nat
  | _, [] => []
  | n, b :: bs =>
      let n1 := if b then n + 1 else n
      n1 :: cum_invocations n1 bs

/-- C1: with maxsize = 2 around f(x) = x*2, the sequence f(1), f(2), f(1),
f(3), f(2) returns 2, 4, 2, 6, 4; the callable is invoked on calls 1, 2, 4
and 5 only, so an invocation counter reads 1, 2, 2, 3, 4; just before the
fourth call the entry for key 2 is present, and the fourth call's insert
evicts it — afterwards the cache holds exactly the entries for keys 1 and 3
(key 1 least recent). -/
theorem weak_lru_cache_maxsize_two_scenario :
    (runBLog 2 (fun x => x * 2) initLRU [1, 2, 1, 3, 2]).1 =
      [(Except.ok 2, true), (Except.ok 4, true), (Except.ok 2, false),
       (Except.ok 6, true), (Except.ok 4, true)]
    ∧ cum_invocations 0 ((runBLog 2 (fun x => x * 2) initLRU [1, 2, 1, 3, 2]).1.map
        (fun e => e.2)) = [1, 2, 2, 3, 4]
    ∧ od_getitem (runBLog 2 (fun x => x * 2) initLRU [1, 2, 1]).2.cache 2 = some 4
    ∧ (runBLog 2 (fun x => x * 2) initLRU [1, 2, 1, 3]).2.cache = [(1, 2), (3, 6)]
    ∧ (runBLog 2 (fun x => x * 2) initLRU [1, 2, 1, 3, 2]).2.cache = [(3, 6), (2, 4)] :=
  ⟨rfl, rfl, rfl, rfl, rfl⟩

/-! ## C2: the bounded cache never exceeds maxsize -/

/-- One public operation on a wrapper: a call, or `cache_clear()`. -/
inductive CacheOp (K : Type) where
  | call (k : K)
  | clear

/-- Apply one operation to the bounded wrapper's state. -/
def stepB [DecidableEq K] (maxsize : Nat) (hashable : K → Bool)
    (f : K → Except PyErr V) (s : LRUState K V) : CacheOp K → LRUState K V
  | CacheOp.call k => (wrapper_bounded maxsize hashable f s k).2.1
  | CacheOp.clear => cache_clear s

/-- Run a sequence of operations against the bounded wrapper. -/
def runB [DecidableEq K] (maxsize : Nat) (hashable : K → Bool)
    (f : K → Except PyErr V) : LRUState K V → List (CacheOp K) → LRUState K V
  | s, [] => s
  | s, op :: ops => runB maxsize hashable f (stepB maxsize hashable f s op) ops

theorem od_setitem_length_le [DecidableEq K] (c : List (K × V)) (k : K) (v : V) :
    (od_setitem c k v).length ≤ c.length + 1 := by
  induction c with
  | nil => simp [od_setitem]
  | cons hd tl ih =>
      obtain ⟨k', v'⟩ := hd
      by_cases h : k' = k <;> simp [od_setitem, h] <;> omega

theorem od_pop_length_of_mem [DecidableEq K] (c : List (K × V)) (k : K) (v : V)
    (h : od_getitem c k = some v) : (od_pop c k).length + 1 = c.length := by
  induction c with
  | nil => simp [od_getitem] at h
  | cons hd tl ih =>
      obtain ⟨k', v'⟩ := hd
      by_cases hk : k' = k
      · simp [od_pop, hk]
      · simp [od_getitem, hk] at h
        simp [od_pop, hk, ih h]

theorem move_to_end_length_le [DecidableEq K] (c : List (K × V)) (k : K) :
    (move_to_end c k).length ≤ c.length := by
  cases h : od_getitem c k with
  | none => simp [move_to_end, h]
  | some v =>
      have h1 := od_setitem_length_le (od_pop c k) k v
      have h2 := od_pop_length_of_mem c k v h
      simp only [move_to_end, h]
      omega

theorem popitem_first_length (c : List (K × V)) :
    (popitem_first c).length = c.length - 1 := by
  cases c <;> simp [popitem_first]

/-- The length bound is preserved by one call of the bounded wrapper. -/
theorem wrapper_bounded_currsize_le [DecidableEq K] (maxsize : Nat)
    (hashable : K → Bool) (f : K → Except PyErr V) (s : LRUState K V) (k : K)
    (h : currsize s ≤ maxsize) :
    currsize (wrapper_bounded maxsize hashable f s k).2.1 ≤ maxsize := by
  by_cases hh : hashable k
  · cases hl : od_getitem s.cache k with
    | some v =>
        have hmv := move_to_end_length_le s.cache k
        simp only [wrapper_bounded, hh, if_true, hl, currsize] at h ⊢
        omega
    | none =>
        cases hf : f k with
        | ok r =>
            have hset := od_setitem_length_le s.cache k r
            have hpop := popitem_first_length (od_setitem s.cache k r)
            simp only [wrapper_bounded, hh, if_true, hl, hf, currsize] at h ⊢
            by_cases hev : maxsize < (od_setitem s.cache k r).length
            · rw [if_pos hev]
              omega
            · rw [if_neg hev]
              omega
        | error e =>
            simp only [wrapper_bounded, hh, if_true, hl, hf, currsize] at h ⊢
            exact h
  · simp only [wrapper_bounded, hh, if_false, currsize] at h ⊢
    exact h

/-- C2: for a bounded wrapper with positive maxsize, after any sequence of
completed calls (each call's insert-then-evict cycle included) and
cache_clear operations starting from the fresh state, the currsize that
cache_info reports never exceeds maxsize. -/
theorem weak_lru_cache_currsize_le_maxsize [DecidableEq K] (maxsize : Nat)
    (hpos : 0 < maxsize) (hashable : K → Bool) (f : K → Except PyErr V)
    (ops : List (CacheOp K)) :
    currsize (runB maxsize hashable f (initLRU : LRUState K V) ops) ≤ maxsize := by
  have main : ∀ (ops : List (CacheOp K)) (s : LRUState K V), currsize s ≤ maxsize →
      currsize (runB maxsize hashable f s ops) ≤ maxsize := by
    intro ops
    induction ops with
    | nil => intro s hs; simpa [runB] using hs
    | cons op rest ih =>
        intro s hs
        cases op with
        | call k =>
            exact ih _ (wrapper_bounded_currsize_le maxsize hashable f s k hs)
        | clear =>
            exact ih _ (by simp [stepB, cache_clear, currsize])
  exact main ops initLRU (by simpa [initLRU, currsize] using Nat.zero_le maxsize)

/-! ## C3: the unbounded cache invokes the callable at most once per key -/

/-- One call of the unbounded wrapper with a pure callable on hashable
arguments (the setting of C3: nothing raises and no key dies). -/
def callU [DecidableEq K] (f : K → V) (s : LRUState K V) (k : K) :
    Except PyErr V × LRUState K V × Bool :=
  wrapper_unbounded (fun _ => true) (fun x => Except.ok (f x)) s k

/-- Run the unbounded wrapper over a list of arguments, logging for each
call its argument, returned value and whether the callable was invoked. -/
def runULog [DecidableEq K] (f : K → V) :
    LRUState K V → List K → List (K × Except PyErr V × Bool)
  | _, [] => []
  | s, k :: ks =>
      let r := callU f s k
      (k, r.1, r.2.2) :: runULog f r.2.1 ks

/-- Cache coherence for the unbounded wrapper: every stored value is the
callable's value at its key. -/
def cohU [DecidableEq K] (f : K → V) (s : LRUState K V) : Prop :=
  ∀ k v, od_getitem s.cache k = some v → v = f k

theorem callU_hit [DecidableEq K] (f : K → V) (s : LRUState K V) (k : K) (v : V)
    (h : od_getitem s.cache k = some v) :
    callU f s k = (Except.ok v, { s with hits := s.hits + 1 }, false) := by
  simp [callU, wrapper_unbounded, h]

theorem callU_miss [DecidableEq K] (f : K → V) (s : LRUState K V) (k : K)
    (h : od_getitem s.cache k = none) :
    callU f s k =
      (Except.ok (f k),
       { s with cache := od_setitem s.cache k (f k), misses := s.misses + 1 },
       true) := by
  simp [callU, wrapper_unbounded, h]

theorem od_getitem_od_setitem_self [DecidableEq K] (c : List (K × V)) (k : K) (v : V) :
    od_getitem (od_setitem c k v) k = some v := by
  induction c with
  | nil => simp [od_setitem, od_getitem]
  | cons hd tl ih =>
      obtain ⟨k', v'⟩ := hd
      by_cases h : k' = k
      · simp [od_setitem, od_getitem, h]
      · simp [od_setitem, od_getitem, h, ih]

theorem od_getitem_od_setitem_ne [DecidableEq K] (c : List (K × V)) (k k' : K) (v : V)
    (hne : k' ≠ k) : od_getitem (od_setitem c k v) k' = od_getitem c k' := by
  have hne' : ¬ k = k' := fun h => hne h.symm
  induction c with
  | nil =>
      simp only [od_setitem, od_getitem]
      rw [if_neg hne']
  | cons hd tl ih =>
      obtain ⟨k0, v0⟩ := hd
      by_cases h : k0 = k
      · subst h
        simp only [od_setitem, if_pos rfl, od_getitem]
        rw [if_neg hne', if_neg hne']
      · simp only [od_setitem, if_neg h, od_getitem]
        by_cases h' : k0 = k'
        · rw [if_pos h', if_pos h']
        · rw [if_neg h', if_neg h', ih]

theorem cohU_od_setitem [DecidableEq K] (f : K → V) (s : LRUState K V) (k : K)
    (hcoh : cohU f s) (m : Nat) :
    cohU f { s with cache := od_setitem s.cache k (f k), misses := m } := by
  intro k' v' h
  by_cases hk : k' = k
  · subst hk
    rw [od_getitem_od_setitem_self] at h
    exact (Option.some.injEq _ _ ▸ h).symm
  · rw [od_getitem_od_setitem_ne s.cache k k' (f k) hk] at h
    exact hcoh k' v' h

/-- While an entry for k is present, no later call with k invokes the
callable (strict form: the whole log contains no counted invocation of k). -/
theorem runULog_invocations_zero [DecidableEq K] (f : K → V) (k : K) :
    ∀ (ks : List K) (s : LRUState K V), (od_getitem s.cache k).isSome = true →
      ((runULog f s ks).filter (fun e => decide (e.1 = k) && e.2.2)).length = 0 := by
  intro ks
  induction ks with
  | nil =>
      intro s _
      simp [runULog]
  | cons k1 ks ih =>
      intro s hp
      cases hl : od_getitem s.cache k1 with
      | some v =>
          rw [runULog, callU_hit f s k1 v hl]
          rw [List.filter_cons, if_neg (by simp)]
          exact ih _ hp
      | none =>
          rw [runULog, callU_miss f s k1 hl]
          have hk : ¬ k1 = k := by
            intro h
            subst h
            rw [hl] at hp
            simp at hp
          rw [List.filter_cons, if_neg (by simp [hk])]
          refine ih _ ?_
          have hne : k ≠ k1 := fun h => hk h.symm
          show (od_getitem (od_setitem s.cache k1 (f k1)) k).isSome = true
          rw [od_getitem_od_setitem_ne s.cache k1 k (f k1) hne]
          exact hp

/-- The wrapped callable is invoked at most once per distinct argument over
any run of the unbounded wrapper. -/
theorem runULog_invocations_le [DecidableEq K] (f : K → V) (k : K) :
    ∀ (ks : List K) (s : LRUState K V),
      ((runULog f s ks).filter (fun e => decide (e.1 = k) && e.2.2)).length ≤ 1 := by
  intro ks
  induction ks with
  | nil =>
      intro s
      simp [runULog]
  | cons k1 ks ih =>
      intro s
      cases hl : od_getitem s.cache k1 with
      | some v =>
          rw [runULog, callU_hit f s k1 v hl]
          rw [List.filter_cons, if_neg (by simp)]
          exact ih _
      | none =>
          simp only [runULog, callU_miss f s k1 hl]
          by_cases hk : k1 = k
          · subst hk
            rw [List.filter_cons, if_pos (by simp), List.length_cons]
            have h0 := runULog_invocations_zero f k1 ks
              { s with cache := od_setitem s.cache k1 (f k1), misses := s.misses + 1 }
              (by
                show (od_getitem (od_setitem s.cache k1 (f k1)) k1).isSome = true
                rw [od_getitem_od_setitem_self]
                rfl)
            omega
          · rw [List.filter_cons, if_neg (by simp [hk])]
            exact ih _

theorem runULog_outputs [DecidableEq K] (f : K → V) :
    ∀ (ks : List K) (s : LRUState K V), cohU f s →
      ∀ e ∈ runULog f s ks, e.2.1 = Except.ok (f e.1) := by
  intro ks
  induction ks with
  | nil =>
      intro s _ e he
      simp [runULog] at he
  | cons k1 ks ih =>
      intro s hcoh e he
      cases hl : od_getitem s.cache k1 with
      | some v =>
          rw [runULog, callU_hit f s k1 v hl] at he
          rcases List.mem_cons.mp he with h | h
          · subst h
            simpa using hcoh k1 v hl
          · have hcoh' : cohU f { s with hits := s.hits + 1 } := hcoh
            exact ih { s with hits := s.hits + 1 } hcoh' e h
      | none =>
          rw [runULog, callU_miss f s k1 hl] at he
          rcases List.mem_cons.mp he with h | h
          · subst h
            rfl
          · exact ih _ (cohU_od_setitem f s k1 hcoh (s.misses + 1)) e h

/-- C3: for an unbounded wrapper (maxsize = None), over any finite call
sequence from the fresh state with no cache_clear and no key death, the
wrapped callable is invoked at most once per distinct argument, and every
call with argument k returns the value computed for k on its first call
(for the pure callable f, the stored value f k). -/
theorem weak_lru_cache_unbounded_at_most_once [DecidableEq K] (f : K → V)
    (ks : List K) (k : K) :
    ((runULog f (initLRU : LRUState K V) ks).filter
      (fun e => decide (e.1 = k) && e.2.2)).length ≤ 1
    ∧ ∀ e ∈ runULog f (initLRU : LRUState K V) ks, e.2.1 = Except.ok (f e.1) := by
  have hcoh : cohU f (initLRU : LRUState K V) := by
    intro k' v' h
    simp [initLRU, od_getitem] at h
  constructor
  · exact runULog_invocations_le f k ks initLRU
  · exact runULog_outputs f ks initLRU hcoh

/-! ## C6 and C7: error handling of the two wrappers -/

/-- C6: for either wrapper variant, a call whose key hashes with a
TypeError (an unhashable argument) propagates that TypeError out of the
lookup (`except KeyError` does not catch it): the wrapped callable is not
invoked, and the state — cache and counters — is unchanged. -/
theorem weak_lru_cache_unhashable_key [DecidableEq K] (maxsize : Nat)
    (hashable : K → Bool) (f : K → Except PyErr V) (s : LRUState K V) (k : K)
    (h : hashable k = false) :
    wrapper_bounded maxsize hashable f s k = (Except.error PyErr.typeError, s, false)
    ∧ wrapper_unbounded hashable f s k = (Except.error PyErr.typeError, s, false) := by
  constructor
  · simp [wrapper_bounded, h]
  · simp [wrapper_unbounded, h]

/-- Witness for C6: an argument whose key is not hashable. -/
theorem weak_lru_cache_unhashable_key_witness :
    (fun k => decide (k ≠ (3 : Nat))) 3 = false
    ∧ wrapper_bounded 2 (fun k => decide (k ≠ 3)) (fun x => Except.ok (x + 1))
        (initLRU : LRUState Nat Nat) 3 =
      (Except.error PyErr.typeError, initLRU, false)
    ∧ wrapper_unbounded (fun k => decide (k ≠ 3)) (fun x => Except.ok (x + 1))
        (initLRU : LRUState Nat Nat) 3 =
      (Except.error PyErr.typeError, initLRU, false) :=
  ⟨by decide,
   (weak_lru_cache_unhashable_key 2 (fun k => decide (k ≠ 3))
     (fun x => Except.ok (x + 1)) initLRU 3 (by decide)).1,
   (weak_lru_cache_unhashable_key 2 (fun k => decide (k ≠ 3))
     (fun x => Except.ok (x + 1)) initLRU 3 (by decide)).2⟩

/-- C7: for either wrapper variant, when the wrapped callable raises on a
cache miss, the same exception propagates unmodified, the state — cache
and counters — is unchanged (nothing is cached, no negative caching), and
a subsequent identical call invokes the callable again (no retry happened,
the second call recomputes). -/
theorem weak_lru_cache_callable_exception [DecidableEq K] (maxsize : Nat)
    (hashable : K → Bool) (f : K → Except PyErr V) (s : LRUState K V) (k : K)
    (e : PyErr) (hmiss : od_getitem s.cache k = none) (hhash : hashable k = true)
    (herr : f k = Except.error e) :
    wrapper_bounded maxsize hashable f s k = (Except.error e, s, true)
    ∧ wrapper_unbounded hashable f s k = (Except.error e, s, true)
    ∧ (wrapper_bounded maxsize hashable f
        (wrapper_bounded maxsize hashable f s k).2.1 k).2.2 = true
    ∧ (wrapper_unbounded hashable f
        (wrapper_unbounded hashable f s k).2.1 k).2.2 = true := by
  have hb : wrapper_bounded maxsize hashable f s k = (Except.error e, s, true) := by
    simp [wrapper_bounded, hmiss, hhash, herr]
  have hu : wrapper_unbounded hashable f s k = (Except.error e, s, true) := by
    simp [wrapper_unbounded, hmiss, hhash, herr]
  refine ⟨hb, hu, ?_, ?_⟩
  · rw [hb]
    simp [wrapper_bounded, hmiss, hhash, herr]
  · rw [hu]
    simp [wrapper_unbounded, hmiss, hhash, herr]

/-- Witness for C7: a callable that always raises a KeyError-valued
exception, called twice with the same argument. -/
theorem weak_lru_cache_callable_exception_witness :
    od_getitem (initLRU : LRUState Nat Nat).cache 4 = none
    ∧ wrapper_bounded 2 (fun _ => true)
        (fun _ => (Except.error PyErr.keyError : Except PyErr Nat)) initLRU 4 =
      (Except.error PyErr.keyError, initLRU, true) :=
  ⟨by decide,
   (weak_lru_cache_callable_exception 2 (fun _ => true)
     (fun _ => (Except.error PyErr.keyError : Except PyErr Nat)) initLRU 4
     PyErr.keyError (by decide) (by decide) rfl).1⟩

/-! ## lazyval / classlazyval (C8, C9, C10)

The descriptor's `WeakKeyDictionary` cache is modelled by the same
association-list dict as above, keyed by the owner object; the claims below
exclude owner death, so the weak keying plays no role.  `O` is the type of
owner objects (instances for `lazyval`, class objects for `classlazyval`),
`get` models the decorated accessor `self._get`. -/

/-- Result of the descriptor protocol's `__get__`: either the descriptor
object itself (`return self`, on access through the class) or a value. -/
inductive LazyGetResult (V : Type) where
  | descriptor
  | val (v : V)
deriving DecidableEq, Repr

/-- The source's `lazyval.__get__(self, instance, owner)`: `none` models
`instance is None` (access through the class).  Returns the read result,
the cache afterwards, and whether the accessor was invoked. -/
def lazyval_get [DecidableEq O] (get : O → V) (c : List (O × V)) (inst : Option O) :
    LazyGetResult V × List (O × V) × Bool :=
  match inst with
  | none => (LazyGetResult.descriptor, c, false)
  | some o =>
      match od_getitem c o with
      | some v => (LazyGetResult.val v, c, false)
      | none => (LazyGetResult.val (get o), od_setitem c o (get o), true)

/-- The source's `classlazyval.__get__`, which calls
`super().__get__(owner, owner)`: the owning class object is the key. -/
def classlazyval_get [DecidableEq O] (get : O → V) (c : List (O × V)) (owner : O) :
    LazyGetResult V × List (O × V) × Bool :=
  lazyval_get get c (some owner)

/-- A classlazyval read is exactly a lazyval read keyed by the class
object (inheritance in the source). -/
theorem classlazyval_get_eq [DecidableEq O] (get : O → V) (c : List (O × V)) (o : O) :
    classlazyval_get get c o = lazyval_get get c (some o) := rfl

/-- The source's `lazyval.__set__`: unconditionally
`raise AttributeError("Can't set read-only attribute.")`.  It never touches
`self._get` or `self._cache`; the returned cache and invocation flag record
that. -/
def lazyval_set (c : List (O × V)) (_ : O) (_ : V) :
    Except PyErr Unit × List (O × V) × Bool :=
  (Except.error PyErr.attributeError, c, false)

/-- The source's `lazyval.__delitem__`: `del self._cache[instance]`, which
removes the entry or raises `KeyError` when absent (cache unchanged). -/
def lazyval_delitem [DecidableEq O] (c : List (O × V)) (inst : O) :
    Except PyErr Unit × List (O × V) :=
  match od_getitem c inst with
  | some _ => (Except.ok (), od_pop c inst)
  | none => (Except.error PyErr.keyError, c)

theorem od_getitem_not_mem [DecidableEq K] (c : List (K × V)) (k : K)
    (h : k ∉ c.map Prod.fst) : od_getitem c k = none := by
  induction c with
  | nil => rfl
  | cons hd tl ih =>
      obtain ⟨k0, v0⟩ := hd
      simp only [List.map_cons, List.mem_cons] at h
      push_neg at h
      simp only [od_getitem]
      rw [if_neg (fun hh => h.1 hh.symm)]
      exact ih h.2

theorem od_getitem_od_pop_self [DecidableEq K] (c : List (K × V)) (k : K)
    (hnd : (c.map Prod.fst).Nodup) : od_getitem (od_pop c k) k = none := by
  induction c with
  | nil => rfl
  | cons hd tl ih =>
      obtain ⟨k0, v0⟩ := hd
      simp only [List.map_cons, List.nodup_cons] at hnd
      by_cases h : k0 = k
      · subst h
        simp only [od_pop, if_pos rfl]
        exact od_getitem_not_mem tl k0 hnd.1
      · simp only [od_pop, if_neg h, od_getitem]
        exact ih hnd.2

theorem od_getitem_od_pop_ne [DecidableEq K] (c : List (K × V)) (k k' : K)
    (hne : k' ≠ k) : od_getitem (od_pop c k) k' = od_getitem c k' := by
  induction c with
  | nil => rfl
  | cons hd tl ih =>
      obtain ⟨k0, v0⟩ := hd
      by_cases h : k0 = k
      · have h2 : ¬ k0 = k' := by
          rw [h]
          exact fun hh => hne hh.symm
        have h1 : od_pop ((k0, v0) :: tl) k = tl := by
          simp [od_pop, h]
        rw [h1]
        simp only [od_getitem]
        rw [if_neg h2]
      · have h1 : od_pop ((k0, v0) :: tl) k = (k0, v0) :: od_pop tl k := by
          simp [od_pop, h]
        rw [h1]
        simp only [od_getitem]
        rw [ih]

/-- C8: for a lazyval (and so also a classlazyval, whose `__delitem__` and
`__get__` it inherits) whose cache holds an entry for owner o,
invalidating removes exactly that entry — other owners' entries are
untouched — and the next read re-invokes the accessor exactly once, caching
its result, so the read after that is a hit without invocation; when no
entry exists for o, invalidation fails with a KeyError and leaves the
cache unchanged. -/
theorem lazyval_invalidate [DecidableEq O] (get : O → V) (c : List (O × V))
    (o : O) (hnd : (c.map Prod.fst).Nodup) :
    ((od_getitem c o).isSome = true →
      (lazyval_delitem c o).1 = Except.ok ()
      ∧ od_getitem (lazyval_delitem c o).2 o = none
      ∧ (∀ o', o' ≠ o → od_getitem (lazyval_delitem c o).2 o' = od_getitem c o')
      ∧ lazyval_get get (lazyval_delitem c o).2 (some o) =
          (LazyGetResult.val (get o),
           od_setitem (lazyval_delitem c o).2 o (get o), true)
      ∧ lazyval_get get (od_setitem (lazyval_delitem c o).2 o (get o)) (some o) =
          (LazyGetResult.val (get o),
           od_setitem (lazyval_delitem c o).2 o (get o), false))
    ∧ (od_getitem c o = none →
        lazyval_delitem c o = (Except.error PyErr.keyError, c)) := by
  constructor
  · intro hsome
    obtain ⟨v, hv⟩ := Option.isSome_iff_exists.mp hsome
    have hdel : lazyval_delitem c o = (Except.ok (), od_pop c o) := by
      simp [lazyval_delitem, hv]
    have hnone : od_getitem (od_pop c o) o = none := od_getitem_od_pop_self c o hnd
    refine ⟨by rw [hdel], by rw [hdel]; exact hnone, ?_, ?_, ?_⟩
    · intro o' hne
      rw [hdel]
      exact od_getitem_od_pop_ne c o o' hne
    · rw [hdel]
      simp [lazyval_get, hnone]
    · rw [hdel]
      simp [lazyval_get, od_getitem_od_setitem_self]
  · intro hnone
    simp [lazyval_delitem, hnone]

/-- Witness for C8, both branches exercised on concrete caches. -/
theorem lazyval_invalidate_witness :
    ((od_getitem [(1, 50), (2, 60)] (1 : Nat)).isSome = true
      ∧ (lazyval_delitem [(1, 50), (2, 60)] (1 : Nat)).1 = Except.ok ()
      ∧ od_getitem (lazyval_delitem [(1, 50), (2, 60)] (1 : Nat)).2 1 = none)
    ∧ lazyval_delitem ([] : List (Nat × Nat)) 1 =
        (Except.error PyErr.keyError, []) := by
  have h1 := (lazyval_invalidate (fun o : Nat => o + 100) [(1, 50), (2, 60)] 1
    (by decide)).1 (by decide)
  have h2 := (lazyval_invalidate (fun o : Nat => o + 100) ([] : List (Nat × Nat)) 1
    (by decide)).2 (by decide)
  exact ⟨⟨by decide, h1.1, h1.2.1⟩, h2⟩

/-- C9: assigning to a lazyval (or classlazyval, which inherits `__set__`)
attribute always raises AttributeError; the accessor is not invoked and the
cache is not modified, whatever its current contents, so any later read
behaves exactly as it would have without the attempted write. -/
theorem lazyval_set_read_only [DecidableEq O] (get : O → V) (c : List (O × V))
    (o : O) (v : V) (inst : Option O) :
    lazyval_set c o v = (Except.error PyErr.attributeError, c, false)
    ∧ lazyval_get get (lazyval_set c o v).2.1 inst = lazyval_get get c inst :=
  ⟨rfl, rfl⟩

/-- C10: accessing a lazyval attribute through the class — `__get__` with
`instance is None` — returns the descriptor object itself;  the accessor is
not invoked and the cache is unchanged. -/
theorem lazyval_class_access [DecidableEq O] (get : O → V) (c : List (O × V)) :
    lazyval_get get c none = (LazyGetResult.descriptor, c, false) := rfl

/-! ## _WeakKey: pieces, Python weakref equality, memoized hash (C4, C5)

Objects are identified by numeric identities.  A `Heap` gives the state of
the outside world a key is compared or hashed against: which referents are
still alive, what `==` returns on two live referents, and each live
referent's hash.  A piece of a `_WeakKey` is either a weak reference — the
reference object's own identity `rid` plus its referent's identity `tid` —
or a by-value item (`ref(item)` raised TypeError in `_try_ref`).

Python `weakref.ref` comparison semantics, used through `list.__eq__`:
an identical reference object is equal to itself; two distinct reference
objects with both referents alive compare by `==` on the referents; if
either referent is dead they are unequal.  `_WeakKey.__hash__` memoizes
`hash(tuple(self))` in `self.__hash` on its first call; hashing a weak
reference whose referent is already dead (and was never hashed) raises
TypeError, modelled as `none`. -/

structure Heap where
  alive : Nat → Bool
  objEq : Nat → Nat → Bool
  objHash : Nat → Int

/-- One element of a `_WeakKey`: a weak reference (identity of the
reference object, identity of the referent) or a by-value item. -/
inductive Piece where
  | wref (rid : Nat) (tid : Nat)
  | byValue (v : Int)
deriving DecidableEq, Repr

/-- Python `==` on two pieces of a `_WeakKey`, as `list.__eq__` evaluates
it: identity shortcut, then `weakref.ref.__eq__` (live referents by `==`,
otherwise reference-object identity), plain `==` for by-value items; a
reference object never equals a non-reference. -/
def pieceEqPy (H : Heap) : Piece → Piece → Bool
  | Piece.wref r1 t1, Piece.wref r2 t2 =>
      if r1 = r2 then true
      else if H.alive t1 && H.alive t2 then H.objEq t1 t2
      else false
  | Piece.byValue v, Piece.byValue w => v == w
  | _, _ => false

/-- Python `list.__eq__` over the pieces: equal lengths and pairwise `==`. -/
def listEqPy (H : Heap) : List Piece → List Piece → Bool
  | [], [] => true
  | p :: ps, q :: qs => pieceEqPy H p q && listEqPy H ps qs
  | _, _ => false

/-- A `_WeakKey`: its pieces plus the `self.__hash` memo slot
(`hashCache`), and a count of how many times `hash(tuple(self))` was
actually computed (to state "exactly once"). -/
structure WKey where
  pieces : List Piece
  hashCache : Option Int
  hashComputes : Nat
deriving DecidableEq, Repr

/-- `_WeakKey.__init__`: builds the pieces; no hash is computed here. -/
def mkWKey (ps : List Piece) : WKey := ⟨ps, none, 0⟩

/-- `_WeakKey` equality: inherited `list.__eq__` over the pieces. -/
def wkeyEq (H : Heap) (a b : WKey) : Bool := listEqPy H a.pieces b.pieces

/-- Hash of one piece: a live referent's hash, a dead never-hashed
referent raises TypeError (`none`), a by-value item its own hash. -/
def pieceHash (H : Heap) : Piece → Option Int
  | Piece.wref _ t => if H.alive t then some (H.objHash t) else none
  | Piece.byValue v => some v

/-- Combination of the element hashes performed by `hash(tuple(...))`. -/
def tupleHash (hs : List Int) : Int := hs.foldl (fun a h => a * 31 + h) 0

/-- `hash(tuple(self))` over the pieces against a given heap. -/
def rawHash (H : Heap) (ps : List Piece) : Option Int :=
  (ps.mapM (pieceHash H)).map tupleHash

/-- `_WeakKey.__hash__`: return the memo if present, else compute
`hash(tuple(self))` against the current heap, store it, and return it.
Returns the hash together with the key's state afterwards. -/
def hashQuery (H : Heap) (k : WKey) : Option (Int × WKey) :=
  match k.hashCache with
  | some h => some (h, k)
  | none =>
      (rawHash H k.pieces).map fun h =>
        (h, { pieces := k.pieces, hashCache := some h,
              hashComputes := k.hashComputes + 1 })

/-- A heap on which every referent is alive, `==` is identity, and a
referent's hash is its identity. -/
def heapAliveC : Heap := ⟨fun _ => true, fun a b => a == b, fun t => Int.ofNat t⟩

/-- The same heap after every referent has been collected. -/
def heapDeadC : Heap := ⟨fun _ => false, fun a b => a == b, fun t => Int.ofNat t⟩

/-- Counterexample for C4: a freshly constructed `_WeakKey` has computed no
hash at all — the hash is computed at the first `__hash__` call, not at
construction — and equality between two keys holding distinct reference
objects to the same referent does change when the referent is collected
(equal while alive, unequal once dead). -/
theorem wkey_hash_at_construction_cex :
    (mkWKey [Piece.wref 10 1]).hashCache = none
    ∧ (mkWKey [Piece.wref 10 1]).hashComputes = 0
    ∧ wkeyEq heapAliveC (mkWKey [Piece.wref 10 1]) (mkWKey [Piece.wref 11 1]) = true
    ∧ wkeyEq heapDeadC (mkWKey [Piece.wref 10 1]) (mkWKey [Piece.wref 11 1]) = false := by
  decide

/-- C4 (amended): a `_WeakKey`'s hash is computed exactly once, at the
first `__hash__` call; the value is memoized, and every later hash query —
against any later heap, in particular one where a weakly-held piece's
referent has become unreachable — returns that same value without
recomputation, leaving the key unchanged. -/
theorem wkey_hash_memoized (H1 H2 : Heap) (ps : List Piece) (h : Int) (k1 : WKey)
    (hq : hashQuery H1 (mkWKey ps) = some (h, k1)) :
    k1.hashComputes = 1 ∧ k1.hashCache = some h ∧ hashQuery H2 k1 = some (h, k1) := by
  simp only [hashQuery, mkWKey] at hq
  cases hr : rawHash H1 ps with
  | none =>
      rw [hr] at hq
      simp at hq
  | some h0 =>
      rw [hr] at hq
      simp only [Option.map_some'] at hq
      have hinj := Option.some.inj hq
      have hfst : h0 = h := congrArg Prod.fst hinj
      have hsnd : ({ pieces := ps, hashCache := some h0, hashComputes := 0 + 1 } : WKey)
          = k1 := congrArg Prod.snd hinj
      subst hfst
      rw [← hsnd]
      exact ⟨rfl, rfl, rfl⟩

/-- Witness for C4 (amended): first hash query while the referent is
alive, second query after it has been collected. -/
theorem wkey_hash_memoized_witness :
    hashQuery heapAliveC (mkWKey [Piece.wref 10 1]) =
      some (1, ⟨[Piece.wref 10 1], some 1, 1⟩)
    ∧ hashQuery heapDeadC ⟨[Piece.wref 10 1], some 1, 1⟩ =
      some (1, ⟨[Piece.wref 10 1], some 1, 1⟩) :=
  ⟨by decide,
   (wkey_hash_memoized heapAliveC heapDeadC [Piece.wref 10 1] 1
     ⟨[Piece.wref 10 1], some 1, 1⟩ (by decide)).2.2⟩

/-- Piece equality as C5's words state it: a weakly-held piece is compared
by the identity of its (possibly dead) referent, a by-value piece by value
equality. -/
def pieceEqSpec : Piece → Piece → Bool
  | Piece.wref _ t1, Piece.wref _ t2 => t1 == t2
  | Piece.byValue v, Piece.byValue w => v == w
  | _, _ => false

/-- Sequence equality as C5's words state it: pairwise `pieceEqSpec`. -/
def listEqSpec : List Piece → List Piece → Bool
  | [], [] => true
  | p :: ps, q :: qs => pieceEqSpec p q && listEqSpec ps qs
  | _, _ => false

/-- Key equality as C5's words state it. -/
def wkeyEqSpec (a b : WKey) : Bool := listEqSpec a.pieces b.pieces

/-- Counterexample for C5: two keys, each holding its own weak reference to
the same, now-dead referent.  The claim's relation (identity of the
possibly-dead referent) makes them equal; the code's `list` equality over
`weakref.ref` objects makes them unequal, because dead references compare
by reference-object identity, not referent identity. -/
theorem wkey_eq_referent_identity_cex :
    wkeyEqSpec (mkWKey [Piece.wref 20 3]) (mkWKey [Piece.wref 21 3]) = true
    ∧ wkeyEq heapDeadC (mkWKey [Piece.wref 20 3]) (mkWKey [Piece.wref 21 3]) = false := by
  decide

theorem listEqPy_iff_forall2 (H : Heap) : ∀ ps qs : List Piece,
    listEqPy H ps qs = true ↔
      List.Forall₂ (fun p q => pieceEqPy H p q = true) ps qs := by
  intro ps
  induction ps with
  | nil =>
      intro qs
      cases qs with
      | nil => simp [listEqPy]
      | cons q qs => simp [listEqPy]
  | cons p ps ih =>
      intro qs
      cases qs with
      | nil => simp [listEqPy]
      | cons q qs =>
          simp [listEqPy, Bool.and_eq_true, ih qs, List.forall₂_cons]

/-- C5 (amended): two `_WeakKey`s are equal iff their piece sequences are
pairwise equal (in particular of equal length), where pieces compare as
Python evaluates `==` over the list elements: the same reference object is
equal to itself; two distinct reference objects whose referents are both
alive compare by `==` on the referents; if either referent is dead the
pieces are unequal; by-value pieces compare by value equality; a weak piece
never equals a by-value piece. -/
theorem wkey_eq_pairwise (H : Heap) (a b : WKey) :
    wkeyEq H a b = true ↔
      List.Forall₂ (fun p q => pieceEqPy H p q = true) a.pieces b.pieces :=
  listEqPy_iff_forall2 H a.pieces b.pieces

/-- Witness for C2 at maxsize = 1 (the `remember_last` configuration) over a
concrete operation sequence. -/
theorem weak_lru_cache_currsize_le_maxsize_witness :
    0 < 1 ∧ currsize (runB 1 (fun _ => true) (fun x => Except.ok (x + 1))
      (initLRU : LRUState Nat Nat)
      [CacheOp.call 5, CacheOp.call 6, CacheOp.call 5, CacheOp.clear,
       CacheOp.call 7]) ≤ 1 :=
  ⟨by decide,
   weak_lru_cache_currsize_le_maxsize 1 (by decide) (fun _ => true)
     (fun x => Except.ok (x + 1))
     [CacheOp.call 5, CacheOp.call 6, CacheOp.call 5, CacheOp.clear,
      CacheOp.call 7]⟩
